import Mathlib

/-!
Verification of the diff analysis and annotation pipeline of
`ai-codereviewer` (`src/main.ts`) against its natural-language
specification.  All definitions below are shallow embeddings of the
TypeScript source: strings are Lean `String`s manipulated through their
`List Char` data, JavaScript `number` values that matter here are
integers and are embedded as `Int`/`Nat`, fallible operations return
`Option`, and platform builtins (`String.prototype.split`, `trim`,
`includes`, the regex engine, `JSON.parse`) are either modelled
concretely where their exact behaviour matters to a claim, or passed as
abstract parameters where the code treats them as opaque.
-/

/-- `startsWithChars s pre` is `JavaScript s.startsWith(pre)` on
character lists. -/
def startsWithChars : List Char → List Char → Bool
  | _, [] => true
  | [], _ :: _ => false
  | c :: cs, p :: ps => c = p && startsWithChars cs ps

/-- `containsSub s pat` is `JavaScript s.includes(pat)` on character
lists: some suffix of `s` starts with `pat`. -/
def containsSub : List Char → List Char → Bool
  | [], pat => startsWithChars [] pat
  | c :: rest, pat => startsWithChars (c :: rest) pat || containsSub rest pat

/-- `splitOnChar sep s` is `JavaScript s.split(sep)` for a one-character
separator: it always returns at least one (possibly empty) group. -/
def splitOnChar (sep : Char) : List Char → List (List Char)
  | [] => [[]]
  | c :: rest =>
    if c = sep then [] :: splitOnChar sep rest
    else
      match splitOnChar sep rest with
      | [] => [[c]]
      | g :: gs => (c :: g) :: gs

/-- `JavaScript String.prototype.trim`: drop whitespace from both ends
(modelled with `Char.isWhitespace`, which covers the ASCII whitespace
the repository's data can contain). -/
def trimChars (l : List Char) : List Char :=
  ((l.dropWhile Char.isWhitespace).reverse.dropWhile Char.isWhitespace).reverse

/-- `trimChars` lifted to `String`. -/
def jsTrim (s : String) : String :=
  String.mk (trimChars s.data)

/-- `parseInt(ds, 10)` on a non-empty run of decimal digits. -/
def digitsToNat (ds : List Char) : Nat :=
  ds.foldl (fun n c => n * 10 + (c.toNat - '0'.toNat)) 0

/-- One attempt of the regex `@@ \-(\d+),\d+ \+(\d+),\d+ @@` from
`main.ts:566` at the start of the character list; returns the second
capture group (`newStart`) parsed in base 10.  Each `\d+` in the regex
is followed by a non-digit literal, so greedy maximal-run matching is
exact. -/
def matchHeaderAt (l : List Char) : Option Nat :=
  match l with
  | '@' :: '@' :: ' ' :: '-' :: r0 =>
    match r0.span Char.isDigit with
    | ([], _) => none
    | (_ :: _, r1) =>
      match r1 with
      | ',' :: r2 =>
        match r2.span Char.isDigit with
        | ([], _) => none
        | (_ :: _, r3) =>
          match r3 with
          | ' ' :: '+' :: r4 =>
            match r4.span Char.isDigit with
            | ([], _) => none
            | (d3, r5) =>
              match r5 with
              | ',' :: r6 =>
                match r6.span Char.isDigit with
                | ([], _) => none
                | (_ :: _, r7) =>
                  match r7 with
                  | ' ' :: '@' :: '@' :: _ => some (digitsToNat d3)
                  | _ => none
              | _ => none
          | _ => none
      | _ => none
  | _ => none

/-- Leftmost match of the hunk-header regex anywhere in the line, as
`JavaScript line.match(re)` computes it (`main.ts:566`). -/
def findHeader : List Char → Option Nat
  | [] => none
  | c :: rest =>
    match matchHeaderAt (c :: rest) with
    | some n => some n
    | none => findHeader rest

/-- The per-line counter update of `getDiffPosition` (`main.ts:560-574`):
a line starting with `"@@"` whose regex match succeeds resets the
counter to the header's `newStart`; a line starting with `"@@"` whose
match fails leaves the counter unchanged (neither branch of the
`else if` applies); a removed line leaves it unchanged; every other
line increments it. -/
def updateCounter (l : List Char) (cur : Nat) : Nat :=
  if startsWithChars l ['@', '@'] then
    match findHeader l with
    | some ns => ns
    | none => cur
  else if startsWithChars l ['-'] then cur
  else cur + 1

/-- The scanning loop of `getDiffPosition` (`main.ts:560-580`): walk the
physical patch lines, incrementing the 1-based position on every line,
updating the new-line counter, and returning the position the first
time the counter equals the target. -/
def scanLines : List (List Char) → Int → Nat → Nat → Option Nat
  | [], _, _, _ => none
  | l :: rest, target, cur, pos =>
    if (updateCounter l cur : Int) = target then some (pos + 1)
    else scanLines rest target (updateCounter l cur) (pos + 1)

/-- The diff-position mapper on a single file's raw patch text
(`main.ts:548-583`, with the file lookup stripped away): split the patch
on `'\n'` and scan.  The `target = 0` guard embeds the `!line` falsiness
check of `main.ts:549` for a numeric line. -/
def mapLineToPosition (patch : String) (target : Int) : Option Nat :=
  if target = 0 then none
  else scanLines (splitOnChar '\n' patch.data) target 0 0

/-- Modelled from the spec: the counter update of the reference
algorithm of spec §4.4 steps 3-4, read literally: a line that is a hunk
header matching the pattern `@@ -a,b +c,d @@` (the same regex the code
uses, searched anywhere in the line) sets the counter to `c`; *every
other* line not beginning with the removed-line marker increments the
counter. -/
def specUpdateCounter (l : List Char) (cur : Nat) : Nat :=
  match findHeader l with
  | some ns => ns
  | none => if startsWithChars l ['-'] then cur else cur + 1

/-- Modelled from the spec: the scan of the reference algorithm of spec
§4.4 steps 2-6: position incremented unconditionally, counter updated
per `specUpdateCounter`, current position returned the first time the
counter equals the target (checked after the update, header lines
included). -/
def specScan : List (List Char) → Int → Nat → Nat → Option Nat
  | [], _, _, _ => none
  | l :: rest, target, cur, pos =>
    if (specUpdateCounter l cur : Int) = target then some (pos + 1)
    else specScan rest target (specUpdateCounter l cur) (pos + 1)

/-- Modelled from the spec: `mapLineToPosition` of spec §4.4, with the
"negative, zero, or non-numeric target is rejected before the scan"
edge case of §4.4 applied to integer targets. -/
def mapLineToPositionSpec (patch : String) (target : Int) : Option Nat :=
  if target ≤ 0 then none
  else specScan (splitOnChar '\n' patch.data) target 0 0

/-- Reference assignment of new-file line numbers to the physical lines
of a patch: a hunk header (recognised exactly as the implementation
recognises one: starts with `"@@"` and the regex matches) restarts the
numbering at its `newStart`; every following non-removed line carries
one new-file line number, counting up; removed lines and header lines
carry none.  `refScan ls target next pos` returns the 1-based position
of the first line whose assigned number is `target`. -/
def refScan : List (List Char) → Nat → Nat → Nat → Option Nat
  | [], _, _, _ => none
  | l :: rest, target, next, pos =>
    if startsWithChars l ['@', '@'] then
      match findHeader l with
      | some ns => refScan rest target ns (pos + 1)
      | none => refScan rest target next (pos + 1)
    else if startsWithChars l ['-'] then refScan rest target next (pos + 1)
    else if next = target then some (pos + 1)
    else refScan rest target (next + 1) (pos + 1)

/-- The 1-based count of physical patch lines from the patch's start up
to and including the line whose new-file line number is `target`
(`none` when no added/context line of the patch carries that number). -/
def refNewLinePos (patch : String) (target : Nat) : Option Nat :=
  refScan (splitOnChar '\n' patch.data) target 0 0

/-- The `newStart` values of all hunk-header lines of a patch, in
order, recognised exactly as `getDiffPosition` recognises them. -/
def hunkNewStarts (patch : String) : List Nat :=
  (splitOnChar '\n' patch.data).filterMap
    (fun l => if startsWithChars l ['@', '@'] then findHeader l else none)

/-- One file entry of the fetched pull-request diff list
(`octokit.pulls.listFiles` data, `main.ts:539-545`): `patch` is absent
for files GitHub returns without patch text. -/
structure PRFileInfo where
  filename : String
  patch : Option String
deriving DecidableEq

/-- One candidate comment handed to `createReviewComment`
(`main.ts:534`): `line` is `none` when the `line?` field is absent or
`NaN`; the falsy `0` is kept as `some 0` and rejected by the guard. -/
structure InputComment where
  body : String
  path : String
  line : Option Int
deriving DecidableEq

/-- One formatted comment pushed onto `formattedComments`
(`main.ts:585`). -/
structure FormattedComment where
  body : String
  path : String
  position : Option Nat
deriving DecidableEq

/-- `getDiffPosition` (`main.ts:548-583`) including the file lookup:
the `!line` guard rejects an absent or zero line; a file that is not in
the diff list, has no `patch`, or has an empty (falsy) `patch` string
yields `null`. -/
def getDiffPositionFor (fileDiffs : List PRFileInfo) (path : String)
    (line : Option Int) : Option Nat :=
  match line with
  | none => none
  | some l =>
    if l = 0 then none
    else
      match fileDiffs.find? (fun f => f.filename == path) with
      | none => none
      | some fd =>
        match fd.patch with
        | none => none
        | some p => if p = "" then none else scanLines (splitOnChar '\n' p.data) l 0 0

/-- One iteration of the formatting loop of `createReviewComment`
(`main.ts:587-608`): a resolved diff position is attached; otherwise the
comment is pushed with `position: 1` (`main.ts:601-605`). -/
def formatOne (fileDiffs : List PRFileInfo) (c : InputComment) : FormattedComment :=
  match getDiffPositionFor fileDiffs c.path c.line with
  | some p => ⟨c.body, c.path, some p⟩
  | none => ⟨c.body, c.path, some 1⟩

/-- The whole formatting loop of `createReviewComment`
(`main.ts:585-608`): one pushed comment per input comment, in order. -/
def formatComments (fileDiffs : List PRFileInfo) (comments : List InputComment) :
    List FormattedComment :=
  comments.map (formatOne fileDiffs)

/-- One review of a pull request (`octokit.pulls.listReviews` data):
`userLogin` is `review.user?.login`, `none` when either optional link is
missing (`main.ts:259`). -/
structure PRReview where
  userLogin : Option String
deriving DecidableEq

/-- One open pull request together with the data `getUniquePRCommits`
fetches for it: its reviews and its commit SHAs in order
(`main.ts:249-278`). -/
structure OpenPR where
  number : Int
  reviews : List PRReview
  commits : List String
deriving DecidableEq

/-- `main.ts:258-260`: some review's `user?.login` *contains* the
reviewer name as a substring (`String.prototype.includes`). -/
def hasUserReviewed (reviewer : String) (reviews : List PRReview) : Bool :=
  reviews.any fun r =>
    match r.userLogin with
    | some login => containsSub login.data reviewer.data
    | none => false

/-- The loop of `main.ts:249-278` collecting `reviewedCommitShas`: for
every other open pull request (number differing from the current one)
that `hasUserReviewed`, add all its commit SHAs.  The JavaScript `Set`
only ever answers membership queries, so it is embedded as the
concatenation list. -/
def reviewedCommitShas (pull_number : Int) (reviewer : String)
    (allPRs : List OpenPR) : List String :=
  allPRs.foldl
    (fun acc pr =>
      if pr.number = pull_number then acc
      else if hasUserReviewed reviewer pr.reviews then acc ++ pr.commits
      else acc)
    []

/-- The commit deduplicator `getUniquePRCommits` (`main.ts:223-291`),
with the network fetches replaced by their results: keep, in order, the
current pull request's commit SHAs that are not in the reviewed set
(`main.ts:283`). -/
def getUniquePRCommits (pull_number : Int) (currentShas : List String)
    (reviewer : String) (allPRs : List OpenPR) : List String :=
  currentShas.filter (fun sha => !(reviewedCommitShas pull_number reviewer allPRs).contains sha)

/-- Modelled from the spec: Policy B's "a specific named reviewer has
already reviewed" (spec §4.6), read as the named reviewer authoring one
of the reviews, i.e. a review whose user login *is* the reviewer's
name. -/
def namedReviewerReviewed (reviewer : String) (reviews : List PRReview) : Bool :=
  reviews.any fun r => r.userLogin == some reviewer

/-- The default include patterns of `main.ts:853-854`. -/
def defaultPatterns : String := "**/*.cs,**/*.yml"

/-- `main.ts:853-854`: an absent input (empty string from
`core.getInput`) is replaced by the default via `||`; then a value
whose `trim()` is empty (falsy) is replaced by the default. -/
def resolveIncludeInput (input : String) : String :=
  let s := if input = "" then defaultPatterns else input
  if jsTrim s = "" then defaultPatterns else s

/-- `main.ts:856-859`: split the resolved input on commas, trim each
entry, and drop empty entries. -/
def computeIncludePatterns (input : String) : List String :=
  ((splitOnChar ',' (resolveIncludeInput input).data).map
      (fun e => String.mk (trimChars e))).filter
    (fun s => s.length ≠ 0)

/-- The global regex replace of `sanitizeAIResponse` (`main.ts:465-468`):
every occurrence of `\x60\x60\x60json` (the first alternative, with the
optional tag taken greedily) or of a bare triple backtick is deleted,
scanning left to right and resuming after each match. -/
def stripFences : List Char → List Char
  | '\x60' :: '\x60' :: '\x60' :: 'j' :: 's' :: 'o' :: 'n' :: rest => stripFences rest
  | '\x60' :: '\x60' :: '\x60' :: rest => stripFences rest
  | c :: rest => c :: stripFences rest
  | [] => []

/-- `sanitizeAIResponse` (`main.ts:465-468`): remove code-fence markers
globally, then trim. -/
def sanitizeAIResponse (s : String) : String :=
  String.mk (trimChars (stripFences s.data))

/-- JSON values, as `JSON.parse` produces them; numbers are embedded as
integers (the reply format only carries line numbers). -/
inductive Json where
  | null
  | bool (b : Bool)
  | num (n : Int)
  | str (s : String)
  | arr (items : List Json)
  | obj (fields : List (String × Json))

/-- JavaScript property access `j[k]` on a parsed JSON value: `none` is
`undefined` (non-objects have no string-keyed own properties here). -/
def Json.getField : Json → String → Option Json
  | .obj fs, k => (fs.find? (fun f => f.1 == k)).map (·.2)
  | _, _ => none

/-- `JavaScript Number(x)` on an optional JSON value (`main.ts:520`):
`none`/`NaN` stays `none`; string coercion is modelled for optionally
signed decimal integer numerals, the only shape the reply format
produces. -/
def jsNumber : Option Json → Option Int
  | none => none
  | some .null => some 0
  | some (.bool b) => some (if b then 1 else 0)
  | some (.num n) => some n
  | some (.str s) =>
    match trimChars s.data with
    | [] => some 0
    | '-' :: ds => if ds ≠ [] ∧ ds.all Char.isDigit then some (-(digitsToNat ds : Int)) else none
    | '+' :: ds => if ds ≠ [] ∧ ds.all Char.isDigit then some (digitsToNat ds) else none
    | ds => if ds.all Char.isDigit then some (digitsToNat ds) else none
  | some (.arr _) => none
  | some (.obj _) => none

/-- One finding produced by `createComment` (`main.ts:517-521`). -/
structure ReviewFinding where
  body : Option Json
  path : String
  line : Option Int

/-- `createComment` (`main.ts:506-528`), with `JSON.parse` passed in as
the abstract platform parser `parse` (`parse r = none` embeds a throwing
`JSON.parse`).  A reply that fails to parse, or whose `reviews` field is
absent or not an array (so that `.flatMap` throws a `TypeError`), lands
in the `catch` and yields `[]`.  Each array item becomes one finding
unless `file.to` is falsy (`main.ts:514`). -/
def createComment (parse : String → Option Json) (fileTo : Option String)
    (aiResponse : String) : List ReviewFinding :=
  match parse aiResponse with
  | none => []
  | some j =>
    match j.getField "reviews" with
    | some (Json.arr items) =>
      items.flatMap fun item =>
        match fileTo with
        | none => []
        | some p =>
          if p = "" then []
          else [⟨item.getField "reviewComment", p, jsNumber (item.getField "lineNumber")⟩]
    | _ => []

/-- The data one hunk carries into the loop of `analyzeCode`: the reply
string `getAIResponse` returned for its prompt. -/
structure ChunkData where
  response : String
deriving DecidableEq

/-- One parsed file as `analyzeCode` consumes it (`main.ts:386-416`). -/
structure FileData where
  toPath : Option String
  chunks : List ChunkData

/-- The per-chunk body of `analyzeCode`'s loop (`main.ts:400-412`): the
reply is parsed once inside the `try` (`main.ts:402`), so an unparsable
reply throws, is caught, and contributes nothing; an empty reply string
is both unparsable and falsy; otherwise `createComment` runs. -/
def processChunk (parse : String → Option Json) (fileTo : Option String)
    (ch : ChunkData) : List ReviewFinding :=
  match parse ch.response with
  | none => []
  | some _ => if ch.response = "" then [] else createComment parse fileTo ch.response

/-- `analyzeCode` (`main.ts:386-416`): deleted files (`to` strictly
equal to `"/dev/null"`) are skipped; every chunk of every other file
contributes its findings in order. -/
def analyzeCode (parse : String → Option Json) (files : List FileData) :
    List ReviewFinding :=
  files.flatMap fun f =>
    if f.toPath = some "/dev/null" then []
    else f.chunks.flatMap (processChunk parse f.toPath)

/-- The outcome of the external chat-completion call inside
`getAIResponse` (`main.ts:482-493`): the call can throw (this also
covers a reply without choices, whose property access throws inside the
same `try`), or return a message whose `content` may be missing. -/
inductive LLMOutcome where
  | failure
  | success (content : Option String)
deriving DecidableEq

/-- `getAIResponse` (`main.ts:470-504`) as a function of the external
call's outcome: a thrown error is caught and the literal `"\x7b\x7d"`
is returned; a missing or all-whitespace `content` is replaced by
`"\x7b\x7d"` via `|| ` after trimming; the successful result is
sanitised before being returned. -/
def getAIResponse (outcome : LLMOutcome) : String :=
  match outcome with
  | .failure => "\x7b\x7d"
  | .success content =>
    sanitizeAIResponse
      (match content with
       | none => "\x7b\x7d"
       | some c => if jsTrim c = "" then "\x7b\x7d" else jsTrim c)

theorem refScan_pos_lt : ∀ (ls : List (List Char)) (t n pos q : Nat),
    refScan ls t n pos = some q → pos < q := by
  intro ls
  induction ls with
  | nil => intro t n pos q h; exact absurd h (by simp [refScan])
  | cons l rest ih =>
    intro t n pos q h
    simp only [refScan] at h
    split at h
    · split at h
      · have := ih _ _ _ _ h; omega
      · have := ih _ _ _ _ h; omega
    · split at h
      · have := ih _ _ _ _ h; omega
      · split at h
        · cases h; omega
        · have := ih _ _ _ _ h; omega

theorem scanLines_before_refScan : ∀ (ls : List (List Char)) (L c pos q : Nat),
    (c : Int) ≠ (L : Int) → refScan ls L c pos = some q →
    ∃ p, scanLines ls (L : Int) c pos = some p ∧ pos < p ∧ p < q := by
  intro ls
  induction ls with
  | nil => intro L c pos q hne h; exact absurd h (by simp [refScan])
  | cons l rest ih =>
    intro L c pos q hne h
    simp only [refScan] at h
    by_cases h1 : startsWithChars l ['@', '@'] = true
    · rw [if_pos h1] at h
      cases hf : findHeader l with
      | some ns =>
        rw [hf] at h
        have hup : updateCounter l c = ns := by simp [updateCounter, h1, hf]
        by_cases hns : ((ns : Int) = (L : Int))
        · exact ⟨pos + 1, by simp [scanLines, hup, hns], Nat.lt_succ_self pos,
            refScan_pos_lt _ _ _ _ _ h⟩
        · obtain ⟨p, hp, hp1, hp2⟩ := ih _ _ _ _ hns h
          exact ⟨p, by simp [scanLines, hup, hns, hp], by omega, hp2⟩
      | none =>
        rw [hf] at h
        have hup : updateCounter l c = c := by simp [updateCounter, h1, hf]
        obtain ⟨p, hp, hp1, hp2⟩ := ih _ _ _ _ hne h
        exact ⟨p, by simp [scanLines, hup, hne, hp], by omega, hp2⟩
    · rw [if_neg h1] at h
      by_cases h2 : startsWithChars l ['-'] = true
      · rw [if_pos h2] at h
        have hup : updateCounter l c = c := by simp [updateCounter, h1, h2]
        obtain ⟨p, hp, hp1, hp2⟩ := ih _ _ _ _ hne h
        exact ⟨p, by simp [scanLines, hup, hne, hp], by omega, hp2⟩
      · rw [if_neg h2] at h
        have hup : updateCounter l c = c + 1 := by simp [updateCounter, h1, h2]
        have h3 : ¬(c = L) := fun hc => hne (by exact_mod_cast hc)
        rw [if_neg h3] at h
        by_cases h4 : (((c + 1 : Nat) : Int) = (L : Int))
        · exact ⟨pos + 1, by simp [scanLines, hup, h4], Nat.lt_succ_self pos,
            refScan_pos_lt _ _ _ _ _ h⟩
        · obtain ⟨p, hp, hp1, hp2⟩ := ih _ _ _ _ h4 h
          refine ⟨p, ?_, by omega, hp2⟩
          simp [scanLines, hup, hp]
          omega

/-- C1 (counterexample): in the patch `"@@ -1,2 +1,2 @@\n a\n b"` the
line whose new-file line number is 1 is the physical patch line at
position 2 (`" a"`), so the claim demands position 2; `getDiffPosition`
returns 1, the position of the hunk header, because its counter is
compared immediately after being reset. -/
theorem c1_counterexample :
    refNewLinePos "@@ -1,2 +1,2 @@\n a\n b" 1 = some 2 ∧
      mapLineToPosition "@@ -1,2 +1,2 @@\n a\n b" 1 = some 1 ∧
      mapLineToPosition "@@ -1,2 +1,2 @@\n a\n b" 1 ≠ refNewLinePos "@@ -1,2 +1,2 @@\n a\n b" 1 := by
  refine ⟨by decide, by decide, by decide⟩

/-- C1 (amended): for every patch text and every target line `L ≥ 1`
that is materialized as an added or context line of the patch — at,
say, physical position `q`, the count of patch lines up to and
including that line — the mapper returns *some* position, but it is
always strictly smaller than `q`: the code anchors to the physical line
*preceding* the target line (the previous added/context line, or the
hunk header), one position too early. -/
theorem c1_mapper_anchors_before_target (patch : String) (L q : Nat)
    (hL : 1 ≤ L) (h : refNewLinePos patch L = some q) :
    ∃ p, mapLineToPosition patch (L : Int) = some p ∧ 1 ≤ p ∧ p < q := by
  have hz : ¬((L : Int) = 0) := by omega
  rw [mapLineToPosition, if_neg hz]
  have hne : ((0 : Nat) : Int) ≠ (L : Int) := by push_cast; omega
  obtain ⟨p, hp, hp1, hp2⟩ := scanLines_before_refScan _ L 0 0 q hne h
  exact ⟨p, hp, by omega, hp2⟩

/-- C1 (witness): in the same patch, line 2 (`" b"`) sits at physical
position 3, and the mapper indeed returns an earlier position. -/
theorem c1_witness :
    ∃ p, mapLineToPosition "@@ -1,2 +1,2 @@\n a\n b" (2 : Int) = some p ∧ 1 ≤ p ∧ p < 3 :=
  c1_mapper_anchors_before_target "@@ -1,2 +1,2 @@\n a\n b" 2 3 (by decide) (by decide)

theorem scanLines_some_sources : ∀ (ls : List (List Char)) (T : Int) (c pos p : Nat),
    (c : Int) ≠ T → scanLines ls T c pos = some p →
    (∃ l ∈ ls, startsWithChars l ['@', '@'] = true ∧
        ∃ ns, findHeader l = some ns ∧ (ns : Int) = T) ∨
      (∃ n : Nat, (n : Int) + 1 = T ∧ ∃ q, refScan ls n c pos = some q) := by
  intro ls
  induction ls with
  | nil => intro T c pos p hne h; exact absurd h (by simp [scanLines])
  | cons l rest ih =>
    intro T c pos p hne h
    simp only [scanLines] at h
    by_cases h1 : startsWithChars l ['@', '@'] = true
    · cases hf : findHeader l with
      | some ns =>
        have hup : updateCounter l c = ns := by simp [updateCounter, h1, hf]
        rw [hup] at h
        by_cases hns : ((ns : Int) = T)
        · exact Or.inl ⟨l, List.mem_cons_self l rest, h1, ns, hf, hns⟩
        · rw [if_neg hns] at h
          rcases ih _ _ _ _ hns h with ⟨l', hl', hrest⟩ | ⟨n, hn, q, hq⟩
          · exact Or.inl ⟨l', List.mem_cons_of_mem l hl', hrest⟩
          · exact Or.inr ⟨n, hn, q, by simp [refScan, h1, hf, hq]⟩
      | none =>
        have hup : updateCounter l c = c := by simp [updateCounter, h1, hf]
        rw [hup, if_neg hne] at h
        rcases ih _ _ _ _ hne h with ⟨l', hl', hrest⟩ | ⟨n, hn, q, hq⟩
        · exact Or.inl ⟨l', List.mem_cons_of_mem l hl', hrest⟩
        · exact Or.inr ⟨n, hn, q, by simp [refScan, h1, hf, hq]⟩
    · by_cases h2 : startsWithChars l ['-'] = true
      · have hup : updateCounter l c = c := by simp [updateCounter, h1, h2]
        rw [hup, if_neg hne] at h
        rcases ih _ _ _ _ hne h with ⟨l', hl', hrest⟩ | ⟨n, hn, q, hq⟩
        · exact Or.inl ⟨l', List.mem_cons_of_mem l hl', hrest⟩
        · exact Or.inr ⟨n, hn, q, by simp [refScan, h1, h2, hq]⟩
      · have hup : updateCounter l c = c + 1 := by simp [updateCounter, h1, h2]
        rw [hup] at h
        by_cases h4 : (((c + 1 : Nat) : Int) = T)
        · refine Or.inr ⟨c, by push_cast at h4 ⊢; omega, pos + 1, ?_⟩
          simp [refScan, h1, h2]
        · rw [if_neg h4] at h
          rcases ih _ _ _ _ h4 h with ⟨l', hl', hrest⟩ | ⟨n, hn, q, hq⟩
          · exact Or.inl ⟨l', List.mem_cons_of_mem l hl', hrest⟩
          · have hcn : ¬(c = n) := by push_cast at h4; omega
            exact Or.inr ⟨n, hn, q, by simp [refScan, h1, h2, hcn, hq]⟩

/-- C3 (counterexample): in the pure-deletion patch
`"@@ -5,1 +5,0 @@\n-x"` the target line 5 is never materialized as an
added or context line (`refNewLinePos` finds nothing), yet the mapper
returns position 1 — the hunk header's own position — because the
counter is compared right after being reset to the header's
`newStart`. -/
theorem c3_counterexample :
    refNewLinePos "@@ -5,1 +5,0 @@\n-x" 5 = none ∧
      mapLineToPosition "@@ -5,1 +5,0 @@\n-x" 5 = some 1 :=
  ⟨by decide, by decide⟩

/-- C3 (amended): the mapper returns not-found for every target line
that is neither the declared `newStart` of some hunk header of the
patch nor one greater than the new-file line number of some
added/context line of the patch.  (The original claim fails because a
target equal to a hunk's `newStart` — e.g. a line materialized only as
a removed line — resolves to the header's position, and a target one
past a materialized line resolves to that line's position.) -/
theorem c3_unreachable_target_not_found (patch : String) (L : Int)
    (h1 : ∀ ns ∈ hunkNewStarts patch, (ns : Int) ≠ L)
    (h2 : ∀ n : Nat, (n : Int) + 1 = L → refNewLinePos patch n = none) :
    mapLineToPosition patch L = none := by
  by_cases hz : L = 0
  · rw [mapLineToPosition, if_pos hz]
  · rw [mapLineToPosition, if_neg hz]
    cases hscan : scanLines (splitOnChar '\n' patch.data) L 0 0 with
    | none => rfl
    | some p =>
      exfalso
      have hne : (((0 : Nat)) : Int) ≠ L := by push_cast; omega
      rcases scanLines_some_sources _ L 0 0 p hne hscan with
        ⟨l, hl, hat, ns, hf, hns⟩ | ⟨n, hn, q, hq⟩
      · exact h1 ns (List.mem_filterMap.mpr ⟨l, hl, by simp [hat, hf]⟩) hns
      · have := h2 n hn
        rw [refNewLinePos] at this
        rw [this] at hq
        cases hq

/-- C3 (witness): target 7 is not any hunk's `newStart` and line 6 is
not materialized either, so the mapper returns not-found. -/
theorem c3_witness : mapLineToPosition "@@ -5,1 +5,0 @@\n-x" 7 = none :=
  c3_unreachable_target_not_found "@@ -5,1 +5,0 @@\n-x" 7 (by decide)
    (by
      intro n hn
      have h6 : n = 6 := by omega
      subst h6
      decide)

theorem updateCounter_eq_spec (l : List Char) (c : Nat)
    (hl : startsWithChars l ['@', '@'] = (findHeader l).isSome) :
    updateCounter l c = specUpdateCounter l c := by
  cases hf : findHeader l with
  | some ns =>
    have h1 : startsWithChars l ['@', '@'] = true := by rw [hl, hf]; rfl
    simp [updateCounter, specUpdateCounter, h1, hf]
  | none =>
    have h1 : startsWithChars l ['@', '@'] = false := by rw [hl, hf]; rfl
    simp [updateCounter, specUpdateCounter, h1, hf]

theorem scanLines_eq_specScan : ∀ (ls : List (List Char)) (T : Int) (c pos : Nat),
    (∀ l ∈ ls, startsWithChars l ['@', '@'] = (findHeader l).isSome) →
    scanLines ls T c pos = specScan ls T c pos := by
  intro ls
  induction ls with
  | nil => intro T c pos _; rfl
  | cons l rest ih =>
    intro T c pos hwf
    have hl := hwf l (List.mem_cons_self l rest)
    have hrest : ∀ l' ∈ rest, startsWithChars l' ['@', '@'] = (findHeader l').isSome :=
      fun l' hl' => hwf l' (List.mem_cons_of_mem l hl')
    simp only [scanLines, specScan, updateCounter_eq_spec l c hl]
    split
    · rfl
    · exact ih T _ _ hrest

theorem scanLines_neg : ∀ (ls : List (List Char)) (T : Int) (c pos : Nat),
    T < 0 → scanLines ls T c pos = none := by
  intro ls
  induction ls with
  | nil => intro T c pos _; rfl
  | cons l rest ih =>
    intro T c pos hT
    have : ¬((updateCounter l c : Int) = T) := by
      intro hc
      have : (0 : Int) ≤ (updateCounter l c : Int) := Int.natCast_nonneg _
      omega
    simp only [scanLines, if_neg this]
    exact ih T _ _ hT

/-- C2 (counterexample): on the patch `"@@ junk\n x"` (a line starting
with `"@@"` that does not match the header pattern), the implementation
leaves its counter untouched — neither branch of its `else if` runs —
while the spec's reference algorithm treats the line as an ordinary
non-removed line and increments.  Target 1 maps to position 2 in the
code and to position 1 in the reference algorithm. -/
theorem c2_counterexample :
    mapLineToPosition "@@ junk\n x" 1 = some 2 ∧
      mapLineToPositionSpec "@@ junk\n x" 1 = some 1 ∧
      mapLineToPosition "@@ junk\n x" 1 ≠ mapLineToPositionSpec "@@ junk\n x" 1 :=
  ⟨by decide, by decide, by decide⟩

/-- C2 (amended): the implemented mapper agrees extensionally with the
spec's reference algorithm on every patch in which a line starts with
`"@@"` exactly when it contains a match of the hunk-header pattern
`@@ -a,b +c,d @@` — in particular on every well-formed unified diff.
The two differ only on lines starting with `"@@"` that fail the pattern
(the code skips them, the reference counts them) and on lines embedding
the pattern without the `"@@"` prefix. -/
theorem c2_mapper_refines_spec_on_wellformed (patch : String) (T : Int)
    (hwf : ∀ l ∈ splitOnChar '\n' patch.data,
      startsWithChars l ['@', '@'] = (findHeader l).isSome) :
    mapLineToPosition patch T = mapLineToPositionSpec patch T := by
  rcases lt_trichotomy T 0 with hT | hT | hT
  · rw [mapLineToPosition, if_neg (by omega), mapLineToPositionSpec, if_pos (by omega)]
    exact scanLines_neg _ T 0 0 hT
  · rw [mapLineToPosition, if_pos hT, mapLineToPositionSpec, if_pos (by omega)]
  · rw [mapLineToPosition, if_neg (by omega), mapLineToPositionSpec, if_neg (by omega)]
    exact scanLines_eq_specScan _ T 0 0 hwf

/-- C2 (witness): on a well-formed patch with a removed line the two
algorithms agree. -/
theorem c2_witness :
    mapLineToPosition "@@ -1,3 +1,2 @@\n a\n-b\n c" 2 =
      mapLineToPositionSpec "@@ -1,3 +1,2 @@\n a\n-b\n c" 2 :=
  c2_mapper_refines_spec_on_wellformed "@@ -1,3 +1,2 @@\n a\n-b\n c" 2 (by decide)

theorem scanLines_plain_body : ∀ (body : List (List Char)) (c pos i : Nat),
    (∀ l ∈ body, startsWithChars l ['@', '@'] = false ∧ startsWithChars l ['-'] = false) →
    1 ≤ i → i ≤ body.length →
    scanLines body ((c : Int) + (i : Int)) c pos = some (pos + i) := by
  intro body
  induction body with
  | nil => intro c pos i _ h1 h2; simp at h2; omega
  | cons l rest ih =>
    intro c pos i hb h1 h2
    obtain ⟨hl1, hl2⟩ := hb l (List.mem_cons_self l rest)
    have hup : updateCounter l c = c + 1 := by simp [updateCounter, hl1, hl2]
    by_cases hi : i = 1
    · subst hi
      simp only [scanLines, hup]
      rw [if_pos (by push_cast; omega)]
    · have h4 : ¬(((c + 1 : Nat) : Int) = (c : Int) + (i : Int)) := by push_cast; omega
      simp only [scanLines, hup]
      rw [if_neg h4]
      have hcast : (c : Int) + (i : Int) = ((c + 1 : Nat) : Int) + ((i - 1 : Nat) : Int) := by
        push_cast; omega
      rw [hcast, ih (c + 1) (pos + 1) (i - 1)
        (fun l' h => hb l' (List.mem_cons_of_mem l h)) (by omega)
        (by simp at h2; omega)]
      congr 1
      omega

theorem scanLines_single_hunk (hd : List Char) (body : List (List Char)) (c k : Nat)
    (hhd : startsWithChars hd ['@', '@'] = true) (hf : findHeader hd = some c)
    (hbody : ∀ l ∈ body, startsWithChars l ['@', '@'] = false ∧ startsWithChars l ['-'] = false)
    (hk : k ≤ body.length) :
    scanLines (hd :: body) ((c : Int) + (k : Int)) 0 0 = some (k + 1) := by
  have hup : updateCounter hd 0 = c := by simp [updateCounter, hhd, hf]
  by_cases hk0 : k = 0
  · subst hk0
    simp only [scanLines, hup]
    rw [if_pos (by omega)]
  · simp only [scanLines, hup]
    rw [if_neg (by omega)]
    rw [scanLines_plain_body body c 1 k hbody (by omega) hk]
    congr 1
    omega

/-- C9: for a patch that is a single hunk header followed only by
added/context lines (no removed lines, no further headers), the mapper
is strictly monotone over the new-file line numbers present in the
hunk: the hunk materializes lines `c, c+1, …` (`c = newStart ≥ 1`), and
two present lines `c+i < c+j` map to positions `i+1 < j+1`.  (This
holds even though each returned position is one short of the target
line's own physical position, per C1: the error is uniform, so
ordering is preserved.) -/
theorem c9_mapper_strictly_monotone (patch : String) (hd : List Char)
    (body : List (List Char)) (c i j : Nat)
    (hsplit : splitOnChar '\n' patch.data = hd :: body)
    (hhd : startsWithChars hd ['@', '@'] = true)
    (hf : findHeader hd = some c) (hc : 1 ≤ c)
    (hbody : ∀ l ∈ body,
      startsWithChars l ['@', '@'] = false ∧ startsWithChars l ['-'] = false)
    (hij : i < j) (hj : j < body.length) :
    mapLineToPosition patch ((c : Int) + (i : Int)) = some (i + 1) ∧
      mapLineToPosition patch ((c : Int) + (j : Int)) = some (j + 1) ∧
      i + 1 < j + 1 := by
  refine ⟨?_, ?_, by omega⟩
  · rw [mapLineToPosition, if_neg (by omega), hsplit]
    exact scanLines_single_hunk hd body c i hhd hf hbody (by omega)
  · rw [mapLineToPosition, if_neg (by omega), hsplit]
    exact scanLines_single_hunk hd body c j hhd hf hbody (by omega)

/-- C9 (witness): the patch `"@@ -1,3 +1,3 @@\n a\n+b\n c"` has one
hunk with lines 1, 2, 3; lines 1 and 3 map to positions 1 and 3. -/
theorem c9_witness :
    mapLineToPosition "@@ -1,3 +1,3 @@\n a\n+b\n c" ((1 : Int) + (0 : Nat)) = some (0 + 1) ∧
      mapLineToPosition "@@ -1,3 +1,3 @@\n a\n+b\n c" ((1 : Int) + (2 : Nat)) = some (2 + 1) ∧
      0 + 1 < 2 + 1 :=
  c9_mapper_strictly_monotone "@@ -1,3 +1,3 @@\n a\n+b\n c"
    ("@@ -1,3 +1,3 @@".data) [" a".data, "+b".data, " c".data] 1 0 2
    (by decide) (by decide) (by decide) (by decide) (by decide) (by decide) (by decide)

theorem getDiffPositionFor_none_of_no_patch (fds : List PRFileInfo) (path : String)
    (line : Option Int)
    (hp : ∀ fd, fds.find? (fun f => f.filename == path) = some fd →
      fd.patch = none ∨ fd.patch = some "") :
    getDiffPositionFor fds path line = none := by
  cases line with
  | none => rfl
  | some l =>
    by_cases hl : l = 0
    · simp [getDiffPositionFor, hl]
    · cases hfind : fds.find? (fun f => f.filename == path) with
      | none => simp [getDiffPositionFor, hl, hfind]
      | some fd =>
        rcases hp fd hfind with h | h <;> simp [getDiffPositionFor, hl, hfind, h]

/-- C4 (counterexample): a finding for a file that is absent from the
fetched diff list is not emitted without a position: the formatting
loop of `createReviewComment` attaches `position: 1` to it. -/
theorem c4_counterexample :
    formatComments [] [⟨"looks wrong", "f.cs", some 3⟩] =
        [⟨"looks wrong", "f.cs", some 1⟩] ∧
      (FormattedComment.position ⟨"looks wrong", "f.cs", some 1⟩) ≠ none :=
  ⟨by decide, by decide⟩

/-- C4 (amended): a finding whose file has no retrievable patch text
(no matching entry in the diff list, or an entry whose `patch` is
absent or empty) is emitted with its `position` *defaulted to 1* — the
first patch line — rather than with no position; the surrounding batch
is otherwise unaffected. -/
theorem c4_unmapped_comment_defaults_to_position_one (fds : List PRFileInfo)
    (c : InputComment) (pre post : List InputComment)
    (hp : ∀ fd, fds.find? (fun f => f.filename == c.path) = some fd →
      fd.patch = none ∨ fd.patch = some "") :
    formatComments fds (pre ++ c :: post) =
      formatComments fds pre ++ ⟨c.body, c.path, some 1⟩ :: formatComments fds post := by
  have h1 : formatOne fds c = ⟨c.body, c.path, some 1⟩ := by
    rw [formatOne, getDiffPositionFor_none_of_no_patch fds c.path c.line hp]
  simp [formatComments, h1]

/-- C4 (witness): one comment for a file present in the diff list but
with no patch text is pushed with `position: 1`. -/
theorem c4_witness :
    formatComments [⟨"f.cs", none⟩] ([] ++ ⟨"b", "f.cs", some 3⟩ :: []) =
      formatComments [⟨"f.cs", none⟩] [] ++
        ⟨"b", "f.cs", some 1⟩ :: formatComments [⟨"f.cs", none⟩] [] :=
  c4_unmapped_comment_defaults_to_position_one [⟨"f.cs", none⟩] ⟨"b", "f.cs", some 3⟩ [] []
    (by
      intro fd h
      have h' : some (⟨"f.cs", none⟩ : PRFileInfo) = some fd := Eq.trans (by rfl) h
      cases h'
      exact Or.inl rfl)

theorem mem_foldl_reviewed : ∀ (prs : List OpenPR) (pn : Int) (r : String)
    (acc : List String) (sha : String),
    sha ∈ prs.foldl
        (fun acc pr =>
          if pr.number = pn then acc
          else if hasUserReviewed r pr.reviews then acc ++ pr.commits
          else acc)
        acc ↔
      sha ∈ acc ∨ ∃ pr ∈ prs, pr.number ≠ pn ∧ hasUserReviewed r pr.reviews = true ∧
        sha ∈ pr.commits := by
  intro prs
  induction prs with
  | nil => intro pn r acc sha; simp
  | cons pr rest ih =>
    intro pn r acc sha
    simp only [List.foldl_cons]
    rw [ih]
    simp only [List.exists_mem_cons_iff]
    by_cases h1 : pr.number = pn
    · rw [if_pos h1]
      constructor
      · rintro (h | h)
        · exact Or.inl h
        · exact Or.inr (Or.inr h)
      · rintro (h | ⟨hne, _, _⟩ | h)
        · exact Or.inl h
        · exact absurd h1 hne
        · exact Or.inr h
    · rw [if_neg h1]
      by_cases h2 : hasUserReviewed r pr.reviews
      · rw [if_pos h2]
        simp only [List.mem_append]
        constructor
        · rintro ((h | h) | h)
          · exact Or.inl h
          · exact Or.inr (Or.inl ⟨h1, h2, h⟩)
          · exact Or.inr (Or.inr h)
        · rintro (h | ⟨_, _, h⟩ | h)
          · exact Or.inl (Or.inl h)
          · exact Or.inl (Or.inr h)
          · exact Or.inr h
      · rw [if_neg h2]
        constructor
        · rintro (h | h)
          · exact Or.inl h
          · exact Or.inr (Or.inr h)
        · rintro (h | ⟨_, hrev, _⟩ | h)
          · exact Or.inl h
          · exact absurd hrev h2
          · exact Or.inr h

theorem mem_reviewedCommitShas (pn : Int) (r : String) (prs : List OpenPR) (sha : String) :
    sha ∈ reviewedCommitShas pn r prs ↔
      ∃ pr ∈ prs, pr.number ≠ pn ∧ hasUserReviewed r pr.reviews = true ∧
        sha ∈ pr.commits := by
  rw [reviewedCommitShas, mem_foldl_reviewed]
  simp

/-- C5 (counterexample): the reviewer check uses
`String.prototype.includes`, so a review by the distinct user
`"NotPeadarX"` — whose login merely *contains* `"Peadar"` — already
counts as a review by the named reviewer: commit `"s1"` of the current
change request is dropped even though the named reviewer `"Peadar"`
authored none of the other request's reviews. -/
theorem c5_counterexample :
    getUniquePRCommits 1 ["s1"] "Peadar" [⟨2, [⟨some "NotPeadarX"⟩], ["s1"]⟩] = [] ∧
      namedReviewerReviewed "Peadar" [⟨some "NotPeadarX"⟩] = false :=
  ⟨by decide, by decide⟩

/-- C5 (amended): the deduplicator returns exactly those commit
identifiers of the current change request that do not appear among the
commits of *other* open change requests having some review whose user
login *contains* the named reviewer's name as a substring (not: was
authored by that exact reviewer); the result is a sublist of the
current commit list, so ordering is preserved. -/
theorem c5_unique_commits_characterization (pn : Int) (shas : List String)
    (r : String) (prs : List OpenPR) :
    (∀ sha, sha ∈ getUniquePRCommits pn shas r prs ↔
        sha ∈ shas ∧ ¬∃ pr ∈ prs, pr.number ≠ pn ∧
          hasUserReviewed r pr.reviews = true ∧ sha ∈ pr.commits) ∧
      List.Sublist (getUniquePRCommits pn shas r prs) shas := by
  constructor
  · intro sha
    rw [getUniquePRCommits, List.mem_filter]
    have hcon : ((reviewedCommitShas pn r prs).contains sha = true) ↔
        sha ∈ reviewedCommitShas pn r prs := by
      simp
    constructor
    · rintro ⟨hs, hb⟩
      refine ⟨hs, fun hex => ?_⟩
      have hmem := (mem_reviewedCommitShas pn r prs sha).mpr hex
      rw [← hcon] at hmem
      rw [hmem] at hb
      cases hb
    · rintro ⟨hs, hnex⟩
      refine ⟨hs, ?_⟩
      simp only [Bool.not_eq_true']
      rw [← Bool.not_eq_true, hcon]
      exact fun hm => hnex ((mem_reviewedCommitShas pn r prs sha).mp hm)
  · exact List.filter_sublist shas

/-- C6 (counterexample): the input `",,,"` is non-empty and does not
trim to the empty string, so neither fallback fires; yet its
comma-separated, trimmed, non-empty entries form the empty list, so the
filter ends up with no patterns (matching no files) instead of the
default pattern set. -/
theorem c6_counterexample :
    computeIncludePatterns ",,," = [] ∧
      computeIncludePatterns "" = ["**/*.cs", "**/*.yml"] ∧
      ([] : List String) ≠ ["**/*.cs", "**/*.yml"] :=
  ⟨by decide, by decide, by decide⟩

/-- C6 (amended): the fallback to the default pattern set fires exactly
for inputs that are absent (empty) or whose *whole text* trims to the
empty string; for every such input the computed pattern list is the
default one.  (An input such as `",,,"` whose individual entries all
trim to empty is *not* covered: it yields the empty pattern list.) -/
theorem c6_blank_input_falls_back (input : String) (h : jsTrim input = "") :
    computeIncludePatterns input = ["**/*.cs", "**/*.yml"] := by
  have hres : resolveIncludeInput input = defaultPatterns := by
    by_cases h0 : input = ""
    · subst h0; decide
    · simp only [resolveIncludeInput, if_neg h0]
      rw [if_pos h]
  rw [computeIncludePatterns, hres]
  decide

/-- C6 (witness): an all-whitespace input falls back to the default
pattern set. -/
theorem c6_witness : computeIncludePatterns "  " = ["**/*.cs", "**/*.yml"] :=
  c6_blank_input_falls_back "  " (by decide)

theorem stripFences_tick3 (l : List Char) (h : ∀ r, l ≠ 'j' :: 's' :: 'o' :: 'n' :: r) :
    stripFences ('\x60' :: '\x60' :: '\x60' :: l) = stripFences l := by
  rw [stripFences.eq_def]
  split
  · rename_i rest heq
    refine absurd ?_ (h rest)
    injection heq with _ h'
    injection h' with _ h''
    injection h''
  · rename_i rest heq
    injection heq with _ h'
    injection h' with _ h''
    injection h'' with _ h3
    rw [h3]
  · rename_i hne1 hne2 heq
    injection heq with h1 h2
    exact (hne2 l h1.symm h2.symm).elim
  · rename_i heq
    cases heq

theorem stripFences_cons (c : Char) (l : List Char)
    (h : ∀ r, ¬(c = '\x60' ∧ l = '\x60' :: '\x60' :: r)) :
    stripFences (c :: l) = c :: stripFences l := by
  rw [stripFences.eq_def]
  split
  · rename_i rest heq
    injection heq with h1 h2
    exact (h ('j' :: 's' :: 'o' :: 'n' :: rest) ⟨h1, h2⟩).elim
  · rename_i rest hne heq
    injection heq with h1 h2
    exact (h rest ⟨h1, h2⟩).elim
  · rename_i hne1 hne2 heq
    injection heq with h1 h2
    rw [h1, h2]
  · rename_i heq
    cases heq

theorem stripFences_append_nl (xs ys : List Char) :
    stripFences (xs ++ '\n' :: ys) = stripFences xs ++ '\n' :: stripFences ys := by
  induction xs using stripFences.induct with
  | case1 rest ih => simpa [stripFences] using ih
  | case2 rest hne ih =>
    have h' : ∀ r, rest ++ '\n' :: ys ≠ 'j' :: 's' :: 'o' :: 'n' :: r := by
      rcases rest with _ | ⟨a, _ | ⟨b, _ | ⟨d, _ | ⟨e, rest4⟩⟩⟩⟩ <;> intro r hr <;> simp_all
    have hne' : ∀ r, rest ≠ 'j' :: 's' :: 'o' :: 'n' :: r := fun r hr => hne r hr
    rw [List.cons_append, List.cons_append, List.cons_append,
      stripFences_tick3 _ h', stripFences_tick3 _ hne', ih]
  | case3 c rest hA hB ih =>
    have h' : ∀ r, ¬(c = '\x60' ∧ rest ++ '\n' :: ys = '\x60' :: '\x60' :: r) := by
      rcases rest with _ | ⟨a, _ | ⟨b, rest2⟩⟩ <;> rintro r ⟨hc, hr⟩ <;> simp_all
    have h'' : ∀ r, ¬(c = '\x60' ∧ rest = '\x60' :: '\x60' :: r) := by
      rintro r ⟨hc, hr⟩
      exact hB r hc hr
    rw [List.cons_append, stripFences_cons _ _ h', stripFences_cons _ _ h'', ih,
      List.cons_append]
  | case4 => simp [stripFences]

theorem trimChars_nl_wrap (zs : List Char) :
    trimChars ('\n' :: (zs ++ ['\n'])) = trimChars zs := by
  unfold trimChars
  rw [List.dropWhile_cons_of_pos (by decide : Char.isWhitespace '\n' = true)]
  rw [List.dropWhile_append]
  by_cases h : (zs.dropWhile Char.isWhitespace).isEmpty
  · rw [if_pos h]
    have hz : zs.dropWhile Char.isWhitespace = [] := by
      cases hd : zs.dropWhile Char.isWhitespace with
      | nil => rfl
      | cons a t => rw [hd] at h; cases h
    rw [hz]
    decide
  · rw [if_neg h]
    rw [List.reverse_append]
    have : (['\n'] : List Char).reverse = ['\n'] := rfl
    rw [this, List.singleton_append,
      List.dropWhile_cons_of_pos (by decide : Char.isWhitespace '\n' = true)]

/-- C8: sanitizing a reply wrapped in a fenced code block — with or
without the `json` tag — yields exactly the same string as sanitizing
the bare reply, for *every* reply text `R`; the two forms therefore
parse identically downstream (`createComment` receives the same
string). -/
theorem c8_fenced_reply_sanitizes_identically (R : String) :
    sanitizeAIResponse ("```json\n" ++ R ++ "\n```") = sanitizeAIResponse R ∧
      sanitizeAIResponse ("```\n" ++ R ++ "\n```") = sanitizeAIResponse R := by
  have hdata : ∀ a b : String, (a ++ b).data = a.data ++ b.data := fun _ _ => rfl
  constructor
  · rw [sanitizeAIResponse, sanitizeAIResponse]
    congr 1
    rw [hdata, hdata]
    have hshape : "```json\n".data ++ R.data ++ "\n```".data
        = "```json\n".data ++ (R.data ++ '\n' :: "```".data) := by
      rw [List.append_assoc]
    rw [hshape]
    have h1 : stripFences ("```json\n".data ++ (R.data ++ '\n' :: "```".data))
        = '\n' :: stripFences (R.data ++ '\n' :: "```".data) := rfl
    rw [h1, stripFences_append_nl]
    have h3 : stripFences "```".data = [] := rfl
    rw [h3]
    exact trimChars_nl_wrap _
  · rw [sanitizeAIResponse, sanitizeAIResponse]
    congr 1
    rw [hdata, hdata]
    have hshape : "```\n".data ++ R.data ++ "\n```".data
        = "```\n".data ++ (R.data ++ '\n' :: "```".data) := by
      rw [List.append_assoc]
    rw [hshape]
    have h1 : stripFences ("```\n".data ++ (R.data ++ '\n' :: "```".data))
        = '\n' :: stripFences (R.data ++ '\n' :: "```".data) := rfl
    rw [h1, stripFences_append_nl]
    have h3 : stripFences "```".data = [] := rfl
    rw [h3]
    exact trimChars_nl_wrap _

theorem createComment_no_reviews_arr (parse : String → Option Json) (ft : Option String)
    (s : String) (j : Json) (hj : parse s = some j)
    (hrev : ∀ items, j.getField "reviews" ≠ some (Json.arr items)) :
    createComment parse ft s = [] := by
  simp only [createComment, hj]

theorem processChunk_garbage (parse : String → Option Json) (ft : Option String)
    (s : String)
    (hbad : parse s = none ∨
      ∃ j, parse s = some j ∧ ∀ items, j.getField "reviews" ≠ some (Json.arr items)) :
    processChunk parse ft ⟨s⟩ = [] := by
  rcases hbad with h | ⟨j, hj, hrev⟩
  · simp only [processChunk, h]
  · simp only [processChunk, hj]
    by_cases hs : s = ""
    · rw [if_pos hs]
    · rw [if_neg hs, createComment_no_reviews_arr parse ft s j hj hrev]

/-- C7: a reply that is not valid JSON (the abstract `JSON.parse`
returns nothing) or whose parsed value carries no `reviews` array
yields zero findings for its hunk, and the whole analysis is unchanged
by the presence of that hunk: findings collected for every other hunk
and file are exactly the same. -/
theorem c7_malformed_reply_is_local (parse : String → Option Json)
    (ft : Option String) (s : String)
    (hbad : parse s = none ∨
      ∃ j, parse s = some j ∧ ∀ items, j.getField "reviews" ≠ some (Json.arr items))
    (files1 files2 : List FileData) (cs1 cs2 : List ChunkData) :
    processChunk parse ft ⟨s⟩ = [] ∧
      analyzeCode parse (files1 ++ ⟨ft, cs1 ++ ⟨s⟩ :: cs2⟩ :: files2) =
        analyzeCode parse (files1 ++ ⟨ft, cs1 ++ cs2⟩ :: files2) := by
  have hz := processChunk_garbage parse ft s hbad
  refine ⟨hz, ?_⟩
  by_cases hdev : ft = some "/dev/null"
  · simp [analyzeCode, hdev]
  · simp [analyzeCode, hdev, hz]

/-- C7 (witness): with a parser rejecting everything, the garbage chunk
contributes nothing and its removal leaves the batch unchanged. -/
theorem c7_witness :
    processChunk (fun _ => none) (some "a.cs") ⟨"oops"⟩ = [] ∧
      analyzeCode (fun _ => none)
          ([] ++ ⟨some "a.cs", [] ++ ⟨"oops"⟩ :: []⟩ :: []) =
        analyzeCode (fun _ => none) ([] ++ ⟨some "a.cs", [] ++ []⟩ :: []) :=
  c7_malformed_reply_is_local (fun _ => none) (some "a.cs") "oops"
    (Or.inl rfl) [] [] [] []

/-- C10: when the external model call throws, or returns a message with
no content or all-whitespace content, `getAIResponse` returns the
two-character string `"\x7b\x7d"`; under any parser that reads that
string as the empty JSON object, `createComment` then produces zero
findings, and a transport failure is indistinguishable from an empty
reply at the findings level. -/
theorem c10_failure_and_empty_reply_yield_empty_object (c : String)
    (hc : jsTrim c = "") (ft : Option String) (parse : String → Option Json)
    (hpar : parse "\x7b\x7d" = some (Json.obj [])) :
    getAIResponse .failure = "\x7b\x7d" ∧
      getAIResponse (.success none) = "\x7b\x7d" ∧
      getAIResponse (.success (some c)) = "\x7b\x7d" ∧
      createComment parse ft "\x7b\x7d" = [] ∧
      processChunk parse ft ⟨getAIResponse .failure⟩ =
        processChunk parse ft ⟨getAIResponse (.success (some c))⟩ ∧
      processChunk parse ft ⟨getAIResponse .failure⟩ = [] := by
  have h1 : getAIResponse .failure = "\x7b\x7d" := rfl
  have h2 : getAIResponse (.success none) = "\x7b\x7d" := by decide
  have h3 : getAIResponse (.success (some c)) = "\x7b\x7d" := by
    simp only [getAIResponse]
    rw [if_pos hc]
    decide
  have h4 : createComment parse ft "\x7b\x7d" = [] := by
    simp only [createComment, hpar]
    rfl
  have h5 : processChunk parse ft ⟨"\x7b\x7d"⟩ = [] := by
    simp only [processChunk, hpar]
    rw [if_neg (by decide : ¬("\x7b\x7d" : String) = ""), h4]
  exact ⟨h1, h2, h3, h4, by rw [h1, h3], by rw [h1]; exact h5⟩

/-- C10 (witness): a whitespace-only reply and a thrown call both come
out as `"\x7b\x7d"` and contribute zero findings. -/
theorem c10_witness :
    getAIResponse .failure = "\x7b\x7d" ∧
      getAIResponse (.success none) = "\x7b\x7d" ∧
      getAIResponse (.success (some " ")) = "\x7b\x7d" ∧
      createComment (fun s => if s = "\x7b\x7d" then some (Json.obj []) else none)
          (some "f.cs") "\x7b\x7d" = [] ∧
      processChunk (fun s => if s = "\x7b\x7d" then some (Json.obj []) else none)
          (some "f.cs") ⟨getAIResponse .failure⟩ =
        processChunk (fun s => if s = "\x7b\x7d" then some (Json.obj []) else none)
          (some "f.cs") ⟨getAIResponse (.success (some " "))⟩ ∧
      processChunk (fun s => if s = "\x7b\x7d" then some (Json.obj []) else none)
          (some "f.cs") ⟨getAIResponse .failure⟩ = [] :=
  c10_failure_and_empty_reply_yield_empty_object " " (by decide) (some "f.cs")
    (fun s => if s = "\x7b\x7d" then some (Json.obj []) else none) rfl
